import Mathlib

/-!
Verification of `lucid/visualization/hierarchical_tree.py`: a shallow
embedding of the module's data model and functions, followed by theorems
settling the specification claims.

Modelling conventions:
* Python sets (`Ruleset.rules`, `Rule.premise`, `ConjunctiveClause.terms`,
  the `all_terms` accumulator) are modelled as Lean lists in encounter
  order; Python set-iteration order is unspecified, and the spec flags the
  order as an explicit determinization point.
* Python floats (`confidence`, `score`) are carried values never computed
  with, modelled as `Int`.
* `str(term)` / `term.to_cat_str(dataset)` are modelled by a `str` field on
  `Term` and an optional rendering function for the dataset.
* The recursive extractor is not structurally recursive, so it is embedded
  with an explicit fuel argument; the public wrapper supplies fuel
  strictly larger than a termination measure, and fuel-irrelevance is
  proved (`extractAux_fuel_irrel`).  The value `none` models the Python
  `IndexError` raised by `sorted_terms[0]` on an empty ranking.
-/

/-- Model of the external `Term` collaborator: equality plus a string form
(`id` keeps terms with equal string forms distinguishable). -/
structure Term where
  id : Nat
  str : String
deriving DecidableEq

/-- Model of `ConjunctiveClause`: a collection of terms plus confidence and
score. -/
structure ConjunctiveClause where
  terms : List Term
  confidence : Int
  score : Int
deriving DecidableEq

/-- Model of `Rule`: a premise (collection of clauses) and a conclusion,
the conclusion modelled by its string form. -/
structure Rule where
  premise : List ConjunctiveClause
  conclusion : String
deriving DecidableEq

/-- Model of `Ruleset`: rules plus the metadata copied by the partitioner. -/
structure Ruleset where
  rules : List Rule
  feature_names : List String
  output_class_names : List String
  regression : Bool
deriving DecidableEq

/-- One left-to-right pass replacing the two-character pattern `c1 c2` by
`rep`, continuing after the replacement (the semantics of Python
`str.replace` for a two-character pattern). -/
def replacePair (c1 c2 : Char) (rep : List Char) : List Char → List Char
  | [] => []
  | [c] => [c]
  | a :: b :: rest =>
    if a = c1 ∧ b = c2 then rep ++ replacePair c1 c2 rep rest
    else a :: replacePair c1 c2 rep (b :: rest)

/-- Embedding of `_htmlify`: substitute `<=` and then `>=` with their HTML
codes.  (The two patterns can never overlap and neither replacement text
contains either pattern, so the two sequential passes of the source are
faithfully rendered by two sequential `replacePair` passes.) -/
def htmlify (s : String) : String :=
  String.mk (replacePair '>' '=' "&geq;".data (replacePair '<' '=' "&leq;".data s.data))

/-- Rendering of a term: `term.to_cat_str(dataset)` when a dataset is
present, else `str(term)`. -/
def termStr (dataset : Option (Term → String)) (t : Term) : String :=
  match dataset with
  | some to_cat_str => to_cat_str t
  | none => t.str

/-- All term occurrences scanned by `_get_term_counts`'s triple loop, in
encounter order. -/
def allTermOccurrences (rules : List Rule) : List Term :=
  rules.flatMap (fun rule => rule.premise.flatMap (fun clause => clause.terms))

/-- First-occurrence deduplication, modelling the `all_terms` set. -/
def dedupKeepFirst : List Term → List Term
  | [] => []
  | t :: rest => t :: (dedupKeepFirst rest).filter (fun u => u ≠ t)

/-- Embedding of the `num_used_rules_per_term_map` accumulator: the number
of times `t` is encountered by the triple loop. -/
def numUsedRulesPerTerm (rules : List Rule) (t : Term) : Nat :=
  List.count t (allTermOccurrences rules)

/-- Insertion of a term into a count-descending list, before the first
entry of equal or smaller count (the placement a stable sort gives an
earlier-encountered element). -/
def insertDescending (counts : Term → Nat) (t : Term) : List Term → List Term
  | [] => [t]
  | u :: rest =>
    if counts t < counts u then u :: insertDescending counts t rest
    else t :: u :: rest

/-- Stable sort by descending count, the semantics of
`sorted(l, key=lambda x: -count[x])`. -/
def sortDescending (counts : Term → Nat) : List Term → List Term
  | [] => []
  | t :: rest => insertDescending counts t (sortDescending counts rest)

/-- Embedding of `_get_term_counts`: the used terms sorted by descending
count (a stable sort, as Python's `sorted`), together with the count map. -/
def get_term_counts (ruleset : Ruleset) : List Term × (Term → Nat) :=
  (sortDescending (numUsedRulesPerTerm ruleset.rules)
      (dedupKeepFirst (allTermOccurrences ruleset.rules)),
   numUsedRulesPerTerm ruleset.rules)

/-- The clause rewrite performed for the `contain_ruleset`: drop `term`
from the term collection, keeping confidence and score. -/
def clauseWithoutTerm (clause : ConjunctiveClause) (term : Term) : ConjunctiveClause :=
  { terms := clause.terms.filter (fun t => t ≠ term),
    confidence := clause.confidence,
    score := clause.score }

/-- Inner loop of `_partition_ruleset` over one rule's premise: each clause
yields a single-clause rule on the contain side (with `term` dropped) or
the disjoint side. -/
def partitionClauses (premise : List ConjunctiveClause) (conclusion : String) (term : Term) :
    List Rule × List Rule :=
  match premise with
  | [] => ([], [])
  | clause :: rest =>
    let found_term := clause.terms.contains term
    let split_rest := partitionClauses rest conclusion term
    if found_term then
      ({ premise := [clauseWithoutTerm clause term], conclusion := conclusion } :: split_rest.1,
       split_rest.2)
    else
      (split_rest.1,
       { premise := [clause], conclusion := conclusion } :: split_rest.2)

/-- Outer loop of `_partition_ruleset` over the rules. -/
def partitionRules (rules : List Rule) (term : Term) : List Rule × List Rule :=
  match rules with
  | [] => ([], [])
  | rule :: rest =>
    let split_rule := partitionClauses rule.premise rule.conclusion term
    let split_rest := partitionRules rest term
    (split_rule.1 ++ split_rest.1, split_rule.2 ++ split_rest.2)

/-- Embedding of `_partition_ruleset`: the contain/disjoint rulesets, both
inheriting feature names, output class names and the regression flag. -/
def partition_ruleset (ruleset : Ruleset) (term : Term) : Ruleset × Ruleset :=
  ({ rules := (partitionRules ruleset.rules term).1,
     feature_names := ruleset.feature_names,
     output_class_names := ruleset.output_class_names,
     regression := ruleset.regression },
   { rules := (partitionRules ruleset.rules term).2,
     feature_names := ruleset.feature_names,
     output_class_names := ruleset.output_class_names,
     regression := ruleset.regression })

/-- Raw D3 node produced by `_extract_hierarchy_node`: a name, children,
and an optional score (present exactly on conclusion leaves). -/
inductive RawNode where
  | mk (name : String) (children : List RawNode) (score : Option Int)

/-- Name field of a raw node. -/
def RawNode.name : RawNode → String
  | .mk n _ _ => n

/-- Children field of a raw node. -/
def RawNode.children : RawNode → List RawNode
  | .mk _ c _ => c

/-- Score field of a raw node. -/
def RawNode.score : RawNode → Option Int
  | .mk _ _ s => s

/-- The linear chain built by the non-merge base case: one node per term,
each with exactly one child, terminating in the conclusion node. -/
def chainNodes (dataset : Option (Term → String)) : List Term → RawNode → RawNode
  | [], conclusion_node => conclusion_node
  | term :: rest, conclusion_node =>
    RawNode.mk (htmlify (termStr dataset term)) [chainNodes dataset rest conclusion_node] none

/-- Base case of `_extract_hierarchy_node` for a single-rule ruleset: the
first clause of the premise (or none), a conclusion leaf carrying the
clause's score (or 0), and the remaining terms as a merged node or a
chain. -/
def extractSingleRule (rule : Rule) (dataset : Option (Term → String)) (merge : Bool) :
    List RawNode :=
  match rule.premise with
  | [] => [RawNode.mk (htmlify rule.conclusion) [] (some 0)]
  | clause :: _ =>
    let conclusion_node := RawNode.mk (htmlify rule.conclusion) [] (some clause.score)
    match clause.terms with
    | [] => [conclusion_node]
    | _ :: _ =>
      if merge then
        [RawNode.mk
          (htmlify (String.intercalate " AND " (clause.terms.map (termStr dataset))))
          [conclusion_node] none]
      else
        [chainNodes dataset clause.terms conclusion_node]

/-- Termination measure for the extractor: one unit per clause plus one per
term occurrence. -/
def clauseWeight (clause : ConjunctiveClause) : Nat :=
  1 + clause.terms.length

/-- Weight of one rule. -/
def ruleWeight (rule : Rule) : Nat :=
  (rule.premise.map clauseWeight).sum

/-- Weight of a list of rules. -/
def rulesWeight (rules : List Rule) : Nat :=
  (rules.map ruleWeight).sum

/-- Fuelled embedding of `_extract_hierarchy_node`.  `none` in the
`[]`-ranking branch models the `IndexError` of `sorted_terms[0]`; the
fuel-exhaustion `none` is proved unreachable for the fuel chosen by
`extract_hierarchy_node`. -/
def extractAux (dataset : Option (Term → String)) (merge : Bool) :
    Nat → Ruleset → Option (List RawNode)
  | 0, _ => none
  | fuel + 1, ruleset =>
    match ruleset.rules with
    | [] => some []
    | [rule] => some (extractSingleRule rule dataset merge)
    | _ :: _ :: _ =>
      match (get_term_counts ruleset).1 with
      | [] => none
      | next_term :: _ =>
        match extractAux dataset merge fuel (partition_ruleset ruleset next_term).1,
              extractAux dataset merge fuel (partition_ruleset ruleset next_term).2 with
        | some contain_nodes, some disjoint_nodes =>
          some (RawNode.mk (htmlify (termStr dataset next_term)) contain_nodes none
                  :: disjoint_nodes)
        | _, _ => none

/-- Embedding of `_extract_hierarchy_node` with sufficient fuel. -/
def extract_hierarchy_node (ruleset : Ruleset) (dataset : Option (Term → String))
    (merge : Bool) : Option (List RawNode) :=
  extractAux dataset merge (rulesWeight ruleset.rules + 1) ruleset

/-- Annotated D3 node produced by `_compute_tree_properties`. -/
inductive AnnNode where
  | mk (name : String) (children : List AnnNode) (score : Option Int)
       (depth : Nat) (num_descendants : Nat) (class_counts : List (String × Nat))

/-- Name field of an annotated node. -/
def AnnNode.name : AnnNode → String
  | .mk n _ _ _ _ _ => n

/-- Children field of an annotated node. -/
def AnnNode.children : AnnNode → List AnnNode
  | .mk _ c _ _ _ _ => c

/-- Score field of an annotated node. -/
def AnnNode.score : AnnNode → Option Int
  | .mk _ _ s _ _ _ => s

/-- Depth field of an annotated node. -/
def AnnNode.depth : AnnNode → Nat
  | .mk _ _ _ d _ _ => d

/-- Descendant count field of an annotated node. -/
def AnnNode.num_descendants : AnnNode → Nat
  | .mk _ _ _ _ nd _ => nd

/-- Class-count dictionary of an annotated node (a Python dict modelled as
an association list in insertion order). -/
def AnnNode.class_counts : AnnNode → List (String × Nat)
  | .mk _ _ _ _ _ cc => cc

/-- Dictionary read with default 0, modelling `dict.get(k, 0)`. -/
def dictGet (d : List (String × Nat)) (k : String) : Nat :=
  match d.find? (fun p => p.1 = k) with
  | some p => p.2
  | none => 0

/-- Dictionary write, modelling `dict[k] = v`: replace the binding in
place, or append a fresh binding at the end. -/
def dictSet (d : List (String × Nat)) (k : String) (v : Nat) : List (String × Nat) :=
  match d with
  | [] => [(k, v)]
  | p :: rest => if p.1 = k then (k, v) :: rest else p :: dictSet rest k v

/-- The class-count merging loop of `_compute_tree_properties`: for each
entry of a child's counts, add it into the accumulator. -/
def dictMergeAdd (acc child_counts : List (String × Nat)) : List (String × Nat) :=
  child_counts.foldl (fun acc p => dictSet acc p.1 (p.2 + dictGet acc p.1)) acc

/-- Accumulation of `num_descendants += child.num_descendants + 1`. -/
def sumDescendants (children : List AnnNode) : Nat :=
  children.foldl (fun acc c => acc + (c.num_descendants + 1)) 0

/-- Accumulation of the children's class counts into an initially empty
dictionary. -/
def mergeClassCounts (children : List AnnNode) : List (String × Nat) :=
  children.foldl (fun acc c => dictMergeAdd acc c.class_counts) []

/-- Assembly of an annotated internal node from its annotated children. -/
def annotateInternal (name : String) (score : Option Int) (depth : Nat)
    (children : List AnnNode) : AnnNode :=
  AnnNode.mk name children score depth (sumDescendants children) (mergeClassCounts children)

mutual

/-- Embedding of `_compute_tree_properties`.  A leaf gets
`num_descendants = 0` and `class_counts = {name: 1}`.  The collapse branch
requires `depth ≠ 0`, exactly one child, `merge`, and a non-leaf child; as
in the source, the recursive calls do not forward the `merge` flag, so they
annotate with `merge = False`. -/
def compute_tree_properties : RawNode → Nat → Bool → AnnNode
  | RawNode.mk name [] score, depth, _ =>
    AnnNode.mk name [] score depth 0 [(name, 1)]
  | RawNode.mk name [RawNode.mk child_name (g :: gs) child_score] score, depth, true =>
    if depth ≠ 0 then
      annotateInternal (name ++ " AND " ++ child_name) score depth
        (computeTreeList (g :: gs) (depth + 1))
    else
      annotateInternal name score depth
        [compute_tree_properties (RawNode.mk child_name (g :: gs) child_score) (depth + 1) false]
  | RawNode.mk name (child :: rest) score, depth, _ =>
    annotateInternal name score depth (computeTreeList (child :: rest) (depth + 1))

/-- The recursion of `_compute_tree_properties` over a children list (the
source's recursive calls pass no `merge`, so it defaults to `False`). -/
def computeTreeList : List RawNode → Nat → List AnnNode
  | [], _ => []
  | child :: rest, depth =>
    compute_tree_properties child depth false :: computeTreeList rest depth

end

/-- Embedding of `ruleset_hierarchy_tree`: wrap the extracted nodes under
the synthetic `"ruleset"` root and annotate.  `none` propagates the
extractor's `IndexError`. -/
def ruleset_hierarchy_tree (ruleset : Ruleset) (dataset : Option (Term → String))
    (merge : Bool) : Option AnnNode :=
  match extract_hierarchy_node ruleset dataset merge with
  | none => none
  | some children => some (compute_tree_properties (RawNode.mk "ruleset" children none) 0 merge)

mutual

/-- All nodes of an annotated tree (the node itself and, recursively, the
nodes of its children). -/
def AnnNode.allNodes : AnnNode → List AnnNode
  | AnnNode.mk name children score depth nd cc =>
    AnnNode.mk name children score depth nd cc :: AnnNode.allNodesL children

/-- All nodes of a forest of annotated trees. -/
def AnnNode.allNodesL : List AnnNode → List AnnNode
  | [] => []
  | c :: cs => c.allNodes ++ AnnNode.allNodesL cs

end

/-- Number of leaf nodes (empty children list) in an annotated tree. -/
def AnnNode.leafCount (t : AnnNode) : Nat :=
  (t.allNodes.filter (fun n => n.children.isEmpty)).length

mutual

/-- Number of nodes of a raw tree. -/
def RawNode.count : RawNode → Nat
  | .mk _ children _ => 1 + RawNode.countL children

/-- Number of nodes of a raw forest. -/
def RawNode.countL : List RawNode → Nat
  | [] => 0
  | c :: cs => c.count + RawNode.countL cs

end

/-! ## Helper predicates for the claims -/

/-- A rule uses a term when some clause of its premise contains it (for a
single-clause rule, exactly the `found_term` test of the partition loop). -/
def ruleUsesTerm (rule : Rule) (term : Term) : Bool :=
  rule.premise.any (fun clause => clause.terms.contains term)

/-- The rewrite applied by the partitioner to a rule sent to the contain
side: drop the term from every clause, keep the conclusion. -/
def ruleWithoutTerm (rule : Rule) (term : Term) : Rule :=
  { premise := rule.premise.map (fun c => clauseWithoutTerm c term),
    conclusion := rule.conclusion }

/-! ## Partition lemmas -/

lemma length_filter_add_length_filter_not {α : Type} (l : List α) (p : α → Bool) :
    (l.filter p).length + (l.filter (fun a => ! p a)).length = l.length := by
  induction l with
  | nil => simp
  | cons a rest ih =>
    by_cases h : p a <;> simp [List.filter_cons, h] <;> omega

lemma partitionRules_single_clause (rules : List Rule) (T : Term)
    (h : ∀ r ∈ rules, r.premise.length = 1) :
    (partitionRules rules T).1
        = (rules.filter (fun r => ruleUsesTerm r T)).map (fun r => ruleWithoutTerm r T)
      ∧ (partitionRules rules T).2 = rules.filter (fun r => ! ruleUsesTerm r T) := by
  induction rules with
  | nil => simp [partitionRules]
  | cons r rest ih =>
    obtain ⟨c, hc⟩ := List.length_eq_one.mp (h r (by simp))
    have hrest := ih (fun r hr => h r (by simp [hr]))
    have hr_eta : r = { premise := [c], conclusion := r.conclusion } := by
      cases r; simp_all
    by_cases hmem : T ∈ c.terms
    · constructor
      · simp [partitionRules, partitionClauses, hc, hmem, hrest.1, ruleUsesTerm,
          List.filter_cons, ruleWithoutTerm]
      · simp [partitionRules, partitionClauses, hc, hmem, hrest.2, ruleUsesTerm,
          List.filter_cons]
    · constructor
      · simp [partitionRules, partitionClauses, hc, hmem, hrest.1, ruleUsesTerm,
          List.filter_cons]
      · rw [partitionRules]
        simp only [hc, partitionClauses]
        simp only [List.filter_cons, ruleUsesTerm, hc]
        simp [hmem, hrest.2, ← hr_eta, ruleUsesTerm]

/-! ## Sample inputs used by witnesses and counterexamples -/

/-- Sample term A. -/
def tA : Term := ⟨0, "A"⟩

/-- Sample term B. -/
def tB : Term := ⟨1, "B"⟩

/-- Sample term C. -/
def tC : Term := ⟨2, "C"⟩

/-- Sample ruleset with two single-clause rules: `{A, B} → X` (score 9)
and `{B} → Y` (score 5), the end-to-end example of the spec. -/
def rsW : Ruleset :=
  ⟨[⟨[⟨[tA, tB], 0, 9⟩], "X"⟩, ⟨[⟨[tB], 0, 5⟩], "Y"⟩], ["f"], ["X", "Y"], false⟩

/-- C1: for a ruleset whose rules each have a single-clause premise,
`_partition_ruleset` sends every rule whose clause includes `T` to the
contain output with `T` dropped from the clause's term collection
(confidence, score and conclusion kept), and every other rule unchanged to
the disjoint output; the two outputs cover the input with no rule
duplicated and none lost. -/
theorem c1_partition_partitions (R : Ruleset) (T : Term)
    (h : ∀ r ∈ R.rules, r.premise.length = 1) :
    (partition_ruleset R T).1.rules
        = (R.rules.filter (fun r => ruleUsesTerm r T)).map (fun r => ruleWithoutTerm r T)
      ∧ (partition_ruleset R T).2.rules = R.rules.filter (fun r => ! ruleUsesTerm r T)
      ∧ (partition_ruleset R T).1.rules.length + (partition_ruleset R T).2.rules.length
          = R.rules.length := by
  obtain ⟨h1, h2⟩ := partitionRules_single_clause R.rules T h
  refine ⟨h1, h2, ?_⟩
  show (partitionRules R.rules T).1.length + (partitionRules R.rules T).2.length = _
  rw [h1, h2, List.length_map]
  exact length_filter_add_length_filter_not _ _

/-- Witness for C1 at the concrete two-rule ruleset `rsW` and term `B`. -/
theorem c1_partition_partitions_witness :
    (∀ r ∈ rsW.rules, r.premise.length = 1) ∧
    ((partition_ruleset rsW tB).1.rules
        = (rsW.rules.filter (fun r => ruleUsesTerm r tB)).map (fun r => ruleWithoutTerm r tB)
      ∧ (partition_ruleset rsW tB).2.rules = rsW.rules.filter (fun r => ! ruleUsesTerm r tB)
      ∧ (partition_ruleset rsW tB).1.rules.length + (partition_ruleset rsW tB).2.rules.length
          = rsW.rules.length) :=
  ⟨by decide, c1_partition_partitions rsW tB (by decide)⟩

/-- C4 (code bug): a rule with an empty premise is dropped by
`_partition_ruleset` — the clause loop never runs, so the rule is added to
neither output, although the function's documentation promises that every
rule not using the term lands in the disjoint output.  Here the input
holds exactly one rule (premise empty, conclusion `"X"`) and both outputs
are empty. -/
theorem c4_empty_premise_rule_dropped :
    ((⟨[⟨[], "X"⟩], ["f"], ["X"], false⟩ : Ruleset).rules = [⟨[], "X"⟩])
    ∧ (partition_ruleset ⟨[⟨[], "X"⟩], ["f"], ["X"], false⟩ tA).1.rules = []
    ∧ (partition_ruleset ⟨[⟨[], "X"⟩], ["f"], ["X"], false⟩ tA).2.rules = [] :=
  ⟨rfl, rfl, rfl⟩

/-! ## Term-frequency lemmas -/

lemma mem_dedupKeepFirst (t : Term) (l : List Term) : t ∈ dedupKeepFirst l ↔ t ∈ l := by
  induction l with
  | nil => simp [dedupKeepFirst]
  | cons a rest ih =>
    simp only [dedupKeepFirst, List.mem_cons, List.mem_filter]
    by_cases h : t = a
    · simp [h]
    · simp [h, ih]

lemma nodup_dedupKeepFirst (l : List Term) : (dedupKeepFirst l).Nodup := by
  induction l with
  | nil => simp [dedupKeepFirst]
  | cons a rest ih =>
    rw [dedupKeepFirst, List.nodup_cons]
    constructor
    · intro h
      simp [List.mem_filter] at h
    · exact ih.filter _

lemma mem_allTermOccurrences (rules : List Rule) (t : Term) :
    t ∈ allTermOccurrences rules ↔ ∃ r ∈ rules, ∃ c ∈ r.premise, t ∈ c.terms := by
  simp [allTermOccurrences]

lemma insertDescending_perm (counts : Term → Nat) (t : Term) (l : List Term) :
    (insertDescending counts t l).Perm (t :: l) := by
  induction l with
  | nil => simp [insertDescending]
  | cons u rest ih =>
    rw [insertDescending]
    by_cases h : counts t < counts u
    · rw [if_pos h]
      exact (ih.cons u).trans (List.Perm.swap t u rest)
    · rw [if_neg h]

lemma sortDescending_perm (counts : Term → Nat) (l : List Term) :
    (sortDescending counts l).Perm l := by
  induction l with
  | nil => simp [sortDescending]
  | cons t rest ih =>
    exact (insertDescending_perm counts t _).trans (ih.cons t)

lemma insertDescending_pairwise (counts : Term → Nat) (t : Term) (l : List Term)
    (h : l.Pairwise (fun a b => counts b ≤ counts a)) :
    (insertDescending counts t l).Pairwise (fun a b => counts b ≤ counts a) := by
  induction l with
  | nil => simp [insertDescending]
  | cons u rest ih =>
    rw [List.pairwise_cons] at h
    rw [insertDescending]
    by_cases hc : counts t < counts u
    · rw [if_pos hc, List.pairwise_cons]
      refine ⟨?_, ih h.2⟩
      intro x hx
      rcases List.mem_cons.mp (((insertDescending_perm counts t rest).mem_iff).mp hx)
        with hx | hx
      · subst hx
        omega
      · exact h.1 x hx
    · rw [if_neg hc, List.pairwise_cons]
      refine ⟨?_, List.pairwise_cons.mpr h⟩
      intro x hx
      rcases List.mem_cons.mp hx with hx | hx
      · subst hx
        omega
      · have := h.1 x hx
        omega

lemma sortDescending_pairwise (counts : Term → Nat) (l : List Term) :
    (sortDescending counts l).Pairwise (fun a b => counts b ≤ counts a) := by
  induction l with
  | nil => simp [sortDescending]
  | cons t rest ih => exact insertDescending_pairwise counts t _ ih

lemma get_term_counts_mem (R : Ruleset) (t : Term) :
    t ∈ (get_term_counts R).1 ↔ ∃ r ∈ R.rules, ∃ c ∈ r.premise, t ∈ c.terms := by
  rw [get_term_counts]
  rw [(sortDescending_perm _ _).mem_iff, mem_dedupKeepFirst, mem_allTermOccurrences]

lemma get_term_counts_nodup (R : Ruleset) : (get_term_counts R).1.Nodup :=
  (sortDescending_perm _ _).nodup_iff.mpr (nodup_dedupKeepFirst _)

lemma get_term_counts_sorted (R : Ruleset) :
    (get_term_counts R).1.Pairwise
      (fun a b => (get_term_counts R).2 b ≤ (get_term_counts R).2 a) :=
  sortDescending_pairwise _ _

/-- Claim-side counting, following the spec's words: the number of distinct
rules whose premise clause contains the term. -/
def specUsageCount (ruleset : Ruleset) (term : Term) : Nat :=
  (ruleset.rules.filter (fun r => r.premise.any (fun c => c.terms.contains term))).length

lemma numUsedRulesPerTerm_single_clause (rules : List Rule) (t : Term)
    (h1 : ∀ r ∈ rules, r.premise.length ≤ 1)
    (h2 : ∀ r ∈ rules, ∀ c ∈ r.premise, c.terms.Nodup) :
    numUsedRulesPerTerm rules t
      = (rules.filter (fun r => r.premise.any (fun c => c.terms.contains t))).length := by
  induction rules with
  | nil => simp [numUsedRulesPerTerm, allTermOccurrences]
  | cons r rest ih =>
    have hsplit : numUsedRulesPerTerm (r :: rest) t
        = List.count t (r.premise.flatMap (fun c => c.terms)) + numUsedRulesPerTerm rest t := by
      simp [numUsedRulesPerTerm, allTermOccurrences, List.count_append]
    have hrest := ih (fun r hr => h1 r (by simp [hr])) (fun r hr => h2 r (by simp [hr]))
    rw [hsplit, hrest, List.filter_cons]
    have hlen := h1 r (by simp)
    match hp : r.premise with
    | [] => simp
    | [c] =>
      have hnd : c.terms.Nodup := h2 r (by simp) c (by simp [hp])
      by_cases hmem : t ∈ c.terms
      · simp [hmem, List.count_eq_one_of_mem hnd hmem]
        omega
      · simp [hmem, List.count_eq_zero.mpr hmem]
    | c1 :: c2 :: cs =>
      exfalso
      rw [hp] at hlen
      simp at hlen

/-! ## Claim C5 -/

/-- Sample ruleset with a two-clause premise: `({A} OR {A, B}) → X`.  The
term `A` occurs in two clauses of one and the same rule. -/
def rsMulti : Ruleset :=
  ⟨[⟨[⟨[tA], 0, 0⟩, ⟨[tA, tB], 0, 0⟩], "X"⟩], ["f"], ["X"], false⟩

/-- Counterexample to C5 as stated: on a ruleset with a two-clause premise
the count map of `_get_term_counts` counts clause occurrences (here 2 for
`A`), not distinct rules (here 1). -/
theorem c5_counterexample :
    (get_term_counts rsMulti).2 tA = 2 ∧ specUsageCount rsMulti tA = 1
      ∧ ¬ (get_term_counts rsMulti).2 tA = specUsageCount rsMulti tA :=
  ⟨rfl, rfl, by decide⟩

/-- C5 (amended): for rulesets whose rules have at most one premise clause
(with set-like, duplicate-free term collections), `_get_term_counts`
returns exactly the distinct used terms, sorted by descending usage count,
where the usage count of a term is the number of distinct rules whose
clause contains it, together with that count map; and whenever the
recursive extractor produces output for a multi-rule ruleset, its first
node is named after the first term of the ranking, which is a most-used
term. -/
theorem c5_term_ranking (R : Ruleset)
    (h1 : ∀ r ∈ R.rules, r.premise.length ≤ 1)
    (h2 : ∀ r ∈ R.rules, ∀ c ∈ r.premise, c.terms.Nodup) :
    (∀ t, t ∈ (get_term_counts R).1 ↔ ∃ r ∈ R.rules, ∃ c ∈ r.premise, t ∈ c.terms)
    ∧ (get_term_counts R).1.Nodup
    ∧ (get_term_counts R).1.Pairwise
        (fun a b => (get_term_counts R).2 b ≤ (get_term_counts R).2 a)
    ∧ (∀ t, (get_term_counts R).2 t = specUsageCount R t)
    ∧ (∀ dataset merge next_term others ns,
        (get_term_counts R).1 = next_term :: others →
        extract_hierarchy_node R dataset merge = some ns →
        (∃ contain_nodes disjoint_nodes,
            ns = RawNode.mk (htmlify (termStr dataset next_term)) contain_nodes none
                   :: disjoint_nodes ∨ R.rules.length ≤ 1)
        ∧ ∀ u, (get_term_counts R).2 u ≤ (get_term_counts R).2 next_term) := by
  refine ⟨get_term_counts_mem R, get_term_counts_nodup R, get_term_counts_sorted R,
    fun t => numUsedRulesPerTerm_single_clause R.rules t h1 h2, ?_⟩
  intro dataset merge next_term others ns hsorted hns
  constructor
  · match hr : R.rules with
    | [] => exact ⟨[], [], Or.inr (by simp [hr])⟩
    | [r] => exact ⟨[], [], Or.inr (by simp [hr])⟩
    | r1 :: r2 :: rest =>
      rw [extract_hierarchy_node, extractAux, hr] at hns
      simp only [← hr, hsorted] at hns
      rcases hcontain : extractAux dataset merge (rulesWeight R.rules)
          (partition_ruleset R next_term).1 with _ | contain_nodes
      · rw [hcontain] at hns; simp at hns
      · rcases hdisjoint : extractAux dataset merge (rulesWeight R.rules)
            (partition_ruleset R next_term).2 with _ | disjoint_nodes
        · rw [hcontain, hdisjoint] at hns; simp at hns
        · rw [hcontain, hdisjoint] at hns
          simp at hns
          exact ⟨contain_nodes, disjoint_nodes, Or.inl hns.symm⟩
  · intro u
    by_cases hu : u ∈ allTermOccurrences R.rules
    · have hmem : u ∈ (get_term_counts R).1 := by
        rw [get_term_counts_mem, ← mem_allTermOccurrences]
        exact hu
      rw [hsorted] at hmem
      have hpair := get_term_counts_sorted R
      rw [hsorted, List.pairwise_cons] at hpair
      rcases List.mem_cons.mp hmem with h | h
      · rw [h]
      · exact hpair.1 u h
    · have : (get_term_counts R).2 u = 0 := by
        simp only [get_term_counts]
        exact List.count_eq_zero.mpr hu
      rw [this]
      exact Nat.zero_le _

/-- Witness for C5's amended theorem at the concrete two-rule ruleset
`rsW`. -/
theorem c5_term_ranking_witness :
    (∀ r ∈ rsW.rules, r.premise.length ≤ 1) ∧
    (∀ r ∈ rsW.rules, ∀ c ∈ r.premise, c.terms.Nodup) ∧
    ((∀ t, t ∈ (get_term_counts rsW).1 ↔ ∃ r ∈ rsW.rules, ∃ c ∈ r.premise, t ∈ c.terms)
    ∧ (get_term_counts rsW).1.Nodup
    ∧ (get_term_counts rsW).1.Pairwise
        (fun a b => (get_term_counts rsW).2 b ≤ (get_term_counts rsW).2 a)
    ∧ (∀ t, (get_term_counts rsW).2 t = specUsageCount rsW t)
    ∧ (∀ dataset merge next_term others ns,
        (get_term_counts rsW).1 = next_term :: others →
        extract_hierarchy_node rsW dataset merge = some ns →
        (∃ contain_nodes disjoint_nodes,
            ns = RawNode.mk (htmlify (termStr dataset next_term)) contain_nodes none
                   :: disjoint_nodes ∨ rsW.rules.length ≤ 1)
        ∧ ∀ u, (get_term_counts rsW).2 u ≤ (get_term_counts rsW).2 next_term)) :=
  ⟨by decide, by decide, c5_term_ranking rsW (by decide) (by decide)⟩

/-! ## Termination measure of the extractor and fuel irrelevance -/

/-- Number of clauses of a premise containing the term. -/
def clauseHits (premise : List ConjunctiveClause) (term : Term) : Nat :=
  (premise.filter (fun c => c.terms.contains term)).length

/-- Number of (rule, clause) pairs whose clause contains the term. -/
def ruleHits (rules : List Rule) (term : Term) : Nat :=
  (rules.map (fun r => clauseHits r.premise term)).sum

lemma partitionClauses_weight (premise : List ConjunctiveClause) (concl : String) (T : Term) :
    rulesWeight (partitionClauses premise concl T).1
      + rulesWeight (partitionClauses premise concl T).2
      + clauseHits premise T ≤ (premise.map clauseWeight).sum := by
  induction premise with
  | nil => simp [partitionClauses, rulesWeight, clauseHits]
  | cons c rest ih =>
    by_cases hmem : T ∈ c.terms
    · have hlt : (c.terms.filter (fun t => t ≠ T)).length < c.terms.length :=
        List.length_filter_lt_length_iff_exists.mpr ⟨T, hmem, by simp⟩
      simp [partitionClauses, hmem, rulesWeight, ruleWeight, clauseWeight,
        clauseWithoutTerm, clauseHits, List.filter_cons] at ih hlt ⊢
      omega
    · simp [partitionClauses, hmem, rulesWeight, ruleWeight, clauseWeight,
        clauseHits, List.filter_cons] at ih ⊢
      omega

lemma partitionRules_weight (rules : List Rule) (T : Term) :
    rulesWeight (partitionRules rules T).1 + rulesWeight (partitionRules rules T).2
      + ruleHits rules T ≤ rulesWeight rules := by
  induction rules with
  | nil => simp [partitionRules, rulesWeight, ruleHits]
  | cons r rest ih =>
    have h := partitionClauses_weight r.premise r.conclusion T
    simp only [partitionRules, rulesWeight, ruleHits, List.map_append, List.sum_append,
      List.map_cons, List.sum_cons] at *
    have hw : ruleWeight r = (r.premise.map clauseWeight).sum := rfl
    omega

lemma ruleHits_pos (rules : List Rule) (T : Term)
    (h : ∃ r ∈ rules, ∃ c ∈ r.premise, T ∈ c.terms) : 1 ≤ ruleHits rules T := by
  obtain ⟨r, hr, c, hc, hT⟩ := h
  have hclause : 1 ≤ clauseHits r.premise T := by
    have : c ∈ r.premise.filter (fun c => c.terms.contains T) :=
      List.mem_filter.mpr ⟨hc, by simp [hT]⟩
    have := List.length_pos.mpr (List.ne_nil_of_mem this)
    simpa [clauseHits] using this
  calc 1 ≤ clauseHits r.premise T := hclause
    _ ≤ ruleHits rules T := List.single_le_sum (fun _ _ => Nat.zero_le _) _
        (List.mem_map.mpr ⟨r, hr, rfl⟩)

lemma partition_weight_lt (R : Ruleset) (T : Term)
    (h : ∃ r ∈ R.rules, ∃ c ∈ r.premise, T ∈ c.terms) :
    rulesWeight (partition_ruleset R T).1.rules < rulesWeight R.rules
      ∧ rulesWeight (partition_ruleset R T).2.rules < rulesWeight R.rules := by
  have hw := partitionRules_weight R.rules T
  have hp := ruleHits_pos R.rules T h
  constructor
  · show rulesWeight (partitionRules R.rules T).1 < _
    omega
  · show rulesWeight (partitionRules R.rules T).2 < _
    omega

lemma get_term_counts_head_mem (R : Ruleset) (T : Term) (others : List Term)
    (h : (get_term_counts R).1 = T :: others) :
    ∃ r ∈ R.rules, ∃ c ∈ r.premise, T ∈ c.terms := by
  have : T ∈ (get_term_counts R).1 := by
    rw [h]
    exact List.mem_cons_self _ _
  exact (get_term_counts_mem R T).mp this

lemma extractAux_fuel_irrel (dataset : Option (Term → String)) (merge : Bool) :
    ∀ f g ruleset, rulesWeight ruleset.rules < f → rulesWeight ruleset.rules < g →
      extractAux dataset merge f ruleset = extractAux dataset merge g ruleset := by
  intro f
  induction f using Nat.strong_induction_on with
  | _ f ih =>
    intro g ruleset hf hg
    rcases f with _ | f'
    · omega
    rcases g with _ | g'
    · omega
    simp only [extractAux]
    cases hr : ruleset.rules with
    | nil => simp
    | cons r1 tail =>
      cases tail with
      | nil => simp
      | cons r2 tail2 =>
        cases hsorted : (get_term_counts ruleset).1 with
        | nil => simp
        | cons T others =>
          have hmem := get_term_counts_head_mem ruleset T others hsorted
          have hlt := partition_weight_lt ruleset T hmem
          have e1 : extractAux dataset merge f' (partition_ruleset ruleset T).1
              = extractAux dataset merge g' (partition_ruleset ruleset T).1 :=
            ih f' (by omega) g' _ (by omega) (by omega)
          have e2 : extractAux dataset merge f' (partition_ruleset ruleset T).2
              = extractAux dataset merge g' (partition_ruleset ruleset T).2 :=
            ih f' (by omega) g' _ (by omega) (by omega)
          simp [e1, e2]

/-! ## Claim C2 -/

/-- Sample ruleset of two distinct single-clause rules with identical
premises: `{A} → X` (score 1) and `{A} → Y` (score 2). -/
def rsCrash : Ruleset :=
  ⟨[⟨[⟨[tA], 0, 1⟩], "X"⟩, ⟨[⟨[tA], 0, 2⟩], "Y"⟩], ["f"], ["X", "Y"], false⟩

/-- C2 (code bug): on the two-rule single-clause ruleset `rsCrash` the
extractor partitions on `A`, recurses into a two-rule ruleset with no
terms left, and indexes `sorted_terms[0]` of an empty ranking — an
`IndexError` (modelled by `none`), for either value of `merge`.  No tree
with two leaves is produced.  The last conjunct shows the `none` does not
come from fuel exhaustion: every sufficient fuel yields `none`. -/
theorem c2_completeness_crash :
    ruleset_hierarchy_tree rsCrash none false = none
    ∧ ruleset_hierarchy_tree rsCrash none true = none
    ∧ (∀ r ∈ rsCrash.rules, r.premise.length = 1)
    ∧ (∀ fuel, rulesWeight rsCrash.rules < fuel →
        extractAux none false fuel rsCrash = none) :=
  ⟨rfl, rfl, by decide, fun fuel hf =>
    (extractAux_fuel_irrel none false fuel (rulesWeight rsCrash.rules + 1) rsCrash hf
      (by omega)).trans rfl⟩

/-! ## Dictionary lemmas for the class-count accumulator -/

/-- Keys of a class-count dictionary. -/
def dictKeys (d : List (String × Nat)) : List String := d.map Prod.fst

/-- Sum of the values of a class-count dictionary. -/
def dictVals (d : List (String × Nat)) : Nat := (d.map Prod.snd).sum

lemma dictGet_cons_eq (p : String × Nat) (d : List (String × Nat)) (k : String)
    (h : p.1 = k) : dictGet (p :: d) k = p.2 := by
  simp [dictGet, List.find?_cons, h]

lemma dictGet_cons_ne (p : String × Nat) (d : List (String × Nat)) (k : String)
    (h : p.1 ≠ k) : dictGet (p :: d) k = dictGet d k := by
  simp [dictGet, List.find?_cons, h]

lemma dictGet_eq_zero_of_not_mem_keys (d : List (String × Nat)) (k : String)
    (h : k ∉ dictKeys d) : dictGet d k = 0 := by
  induction d with
  | nil => rfl
  | cons p rest ih =>
    simp only [dictKeys, List.map_cons, List.mem_cons] at h
    push_neg at h
    rw [dictGet_cons_ne p rest k (fun hp => h.1 hp.symm)]
    exact ih (by simpa [dictKeys] using h.2)

lemma dictGet_dictSet_self (d : List (String × Nat)) (k : String) (v : Nat) :
    dictGet (dictSet d k v) k = v := by
  induction d with
  | nil => simp [dictSet, dictGet, List.find?_cons]
  | cons p rest ih =>
    rw [dictSet]
    by_cases h : p.1 = k
    · rw [if_pos h, dictGet_cons_eq _ _ _ rfl]
    · rw [if_neg h, dictGet_cons_ne _ _ _ h]
      exact ih

lemma dictGet_dictSet_ne (d : List (String × Nat)) (k k' : String) (v : Nat)
    (h : k' ≠ k) : dictGet (dictSet d k v) k' = dictGet d k' := by
  induction d with
  | nil =>
    rw [dictSet, dictGet_cons_ne _ _ _ (fun e => h e.symm)]
  | cons p rest ih =>
    rw [dictSet]
    by_cases hp : p.1 = k
    · rw [if_pos hp, dictGet_cons_ne ((k, v)) _ _ (fun e => h e.symm),
        dictGet_cons_ne _ _ _ (by rw [hp]; exact fun e => h e.symm)]
    · rw [if_neg hp]
      by_cases hp' : p.1 = k'
      · rw [dictGet_cons_eq _ _ _ hp', dictGet_cons_eq _ _ _ hp']
      · rw [dictGet_cons_ne _ _ _ hp', dictGet_cons_ne _ _ _ hp']
        exact ih

lemma dictVals_dictSet_add (d : List (String × Nat)) (k : String) (v : Nat) :
    dictVals (dictSet d k (v + dictGet d k)) = dictVals d + v := by
  induction d with
  | nil => simp [dictSet, dictGet, dictVals]
  | cons p rest ih =>
    rw [dictSet]
    by_cases h : p.1 = k
    · rw [if_pos h, dictGet_cons_eq _ _ _ h]
      simp only [dictVals, List.map_cons, List.sum_cons]
      omega
    · rw [if_neg h, dictGet_cons_ne _ _ _ h]
      simp only [dictVals, List.map_cons, List.sum_cons] at ih ⊢
      omega

lemma mem_dictKeys_dictSet (d : List (String × Nat)) (k : String) (v : Nat) (x : String) :
    x ∈ dictKeys (dictSet d k v) ↔ x = k ∨ x ∈ dictKeys d := by
  induction d with
  | nil => simp [dictSet, dictKeys]
  | cons p rest ih =>
    rw [dictSet]
    by_cases h : p.1 = k
    · rw [if_pos h]
      simp [dictKeys, h]
    · rw [if_neg h]
      simp [dictKeys] at ih ⊢
      tauto

lemma dictKeys_nodup_dictSet (d : List (String × Nat)) (k : String) (v : Nat)
    (h : (dictKeys d).Nodup) : (dictKeys (dictSet d k v)).Nodup := by
  induction d with
  | nil => simp [dictSet, dictKeys]
  | cons p rest ih =>
    rw [dictSet]
    simp only [dictKeys, List.map_cons, List.nodup_cons] at h
    by_cases hp : p.1 = k
    · rw [if_pos hp]
      simp only [dictKeys, List.map_cons, List.nodup_cons]
      rw [← hp]
      exact h
    · rw [if_neg hp]
      simp only [dictKeys, List.map_cons, List.nodup_cons]
      constructor
      · intro hmem
        rcases (mem_dictKeys_dictSet rest k v p.1).mp (by simpa [dictKeys] using hmem)
          with he | he
        · exact hp he
        · exact h.1 (by simpa [dictKeys] using he)
      · exact ih h.2

lemma dictMergeAdd_cons (acc : List (String × Nat)) (p : String × Nat)
    (rest : List (String × Nat)) :
    dictMergeAdd acc (p :: rest)
      = dictMergeAdd (dictSet acc p.1 (p.2 + dictGet acc p.1)) rest := rfl

lemma dictGet_dictMergeAdd (d : List (String × Nat)) (hd : (dictKeys d).Nodup) :
    ∀ acc k, dictGet (dictMergeAdd acc d) k = dictGet acc k + dictGet d k := by
  induction d with
  | nil => intro acc k; simp [dictMergeAdd, dictGet]
  | cons p rest ih =>
    intro acc k
    simp only [dictKeys, List.map_cons, List.nodup_cons] at hd
    rw [dictMergeAdd_cons, ih (by simpa [dictKeys] using hd.2)]
    by_cases hk : k = p.1
    · rw [hk, dictGet_dictSet_self, dictGet_cons_eq _ _ _ rfl,
        dictGet_eq_zero_of_not_mem_keys rest p.1 (by simpa [dictKeys] using hd.1)]
      omega
    · rw [dictGet_dictSet_ne _ _ _ _ hk, dictGet_cons_ne _ _ _ (fun e => hk e.symm)]

lemma dictVals_dictMergeAdd (d : List (String × Nat)) :
    ∀ acc, dictVals (dictMergeAdd acc d) = dictVals acc + dictVals d := by
  induction d with
  | nil => intro acc; simp [dictMergeAdd, dictVals]
  | cons p rest ih =>
    intro acc
    rw [dictMergeAdd_cons, ih, dictVals_dictSet_add]
    simp only [dictVals, List.map_cons, List.sum_cons]
    omega

lemma dictKeys_nodup_dictMergeAdd (d : List (String × Nat)) :
    ∀ acc, (dictKeys acc).Nodup → (dictKeys (dictMergeAdd acc d)).Nodup := by
  induction d with
  | nil => intro acc h; exact h
  | cons p rest ih =>
    intro acc h
    rw [dictMergeAdd_cons]
    exact ih _ (dictKeys_nodup_dictSet _ _ _ h)

/-! ## Structural lemmas for annotated trees -/

lemma sumDescendants_eq (children : List AnnNode) :
    sumDescendants children = (children.map (fun c => c.num_descendants + 1)).sum := by
  have haux : ∀ l init, List.foldl (fun acc c => acc + (AnnNode.num_descendants c + 1)) init l
      = init + (l.map (fun c => c.num_descendants + 1)).sum := by
    intro l
    induction l with
    | nil => intro init; simp
    | cons c cs ih =>
      intro init
      simp only [List.foldl_cons, List.map_cons, List.sum_cons, ih]
      omega
  simpa [sumDescendants] using haux children 0

lemma mergeClassCounts_get (children : List AnnNode)
    (h : ∀ c ∈ children, (dictKeys c.class_counts).Nodup) (k : String) :
    dictGet (mergeClassCounts children) k
      = (children.map (fun c => dictGet c.class_counts k)).sum := by
  have haux : ∀ l acc, (∀ c ∈ l, (dictKeys (AnnNode.class_counts c)).Nodup) →
      dictGet (List.foldl (fun acc c => dictMergeAdd acc (AnnNode.class_counts c)) acc l) k
        = dictGet acc k + (l.map (fun c => dictGet c.class_counts k)).sum := by
    intro l
    induction l with
    | nil => intro acc _; simp
    | cons c cs ih =>
      intro acc hl
      simp only [List.foldl_cons, List.map_cons, List.sum_cons]
      rw [ih _ (fun c hc => hl c (by simp [hc])),
        dictGet_dictMergeAdd _ (hl c (by simp)) acc k]
      omega
  simpa [mergeClassCounts, dictGet] using haux children [] h

lemma mergeClassCounts_vals (children : List AnnNode) :
    dictVals (mergeClassCounts children)
      = (children.map (fun c => dictVals c.class_counts)).sum := by
  have haux : ∀ l acc,
      dictVals (List.foldl (fun acc c => dictMergeAdd acc (AnnNode.class_counts c)) acc l)
        = dictVals acc + (l.map (fun c => dictVals c.class_counts)).sum := by
    intro l
    induction l with
    | nil => intro acc; simp
    | cons c cs ih =>
      intro acc
      simp only [List.foldl_cons, List.map_cons, List.sum_cons]
      rw [ih, dictVals_dictMergeAdd]
      omega
  simpa [mergeClassCounts, dictVals] using haux children []

lemma mergeClassCounts_keys_nodup (children : List AnnNode) :
    (dictKeys (mergeClassCounts children)).Nodup := by
  have haux : ∀ l acc, (dictKeys acc).Nodup →
      (dictKeys (List.foldl (fun acc c => dictMergeAdd acc (AnnNode.class_counts c)) acc l)).Nodup := by
    intro l
    induction l with
    | nil => intro acc h; exact h
    | cons c cs ih =>
      intro acc h
      simp only [List.foldl_cons]
      exact ih _ (dictKeys_nodup_dictMergeAdd _ _ h)
  exact haux children [] (by simp [dictKeys])

lemma computeTreeList_eq_map (cs : List RawNode) (d : Nat) :
    computeTreeList cs d = cs.map (fun c => compute_tree_properties c d false) := by
  induction cs with
  | nil => rfl
  | cons c rest ih => simp [computeTreeList, ih]

lemma allNodesL_eq_flatMap (cs : List AnnNode) :
    AnnNode.allNodesL cs = cs.flatMap AnnNode.allNodes := by
  induction cs with
  | nil => rfl
  | cons c rest ih => simp [AnnNode.allNodesL, ih]

lemma allNodes_mk (name : String) (children : List AnnNode) (score : Option Int)
    (depth nd : Nat) (cc : List (String × Nat)) :
    (AnnNode.mk name children score depth nd cc).allNodes
      = AnnNode.mk name children score depth nd cc :: AnnNode.allNodesL children := rfl

lemma mem_allNodes_self (t : AnnNode) : t ∈ t.allNodes := by
  cases t
  rw [allNodes_mk]
  exact List.mem_cons_self _ _

lemma allNodes_length_pos (t : AnnNode) : 0 < t.allNodes.length := by
  cases t
  rw [allNodes_mk]
  simp

lemma leafCount_leaf (name : String) (score : Option Int) (depth nd : Nat)
    (cc : List (String × Nat)) :
    (AnnNode.mk name [] score depth nd cc).leafCount = 1 := rfl

lemma leafCount_internal (name : String) (children : List AnnNode) (score : Option Int)
    (depth nd : Nat) (cc : List (String × Nat)) (h : children ≠ []) :
    (AnnNode.mk name children score depth nd cc).leafCount
      = (children.map AnnNode.leafCount).sum := by
  have hfilter : ∀ cs : List AnnNode,
      ((AnnNode.allNodesL cs).filter (fun n => n.children.isEmpty)).length
        = (cs.map AnnNode.leafCount).sum := by
    intro cs
    induction cs with
    | nil => rfl
    | cons c rest ih =>
      simp only [AnnNode.allNodesL, List.filter_append, List.length_append, List.map_cons,
        List.sum_cons, ih, AnnNode.leafCount]
  rw [AnnNode.leafCount, allNodes_mk, List.filter_cons]
  have hne : (AnnNode.mk name children score depth nd cc).children.isEmpty = false := by
    cases children with
    | nil => exact absurd rfl h
    | cons a l => rfl
  rw [hne]
  simp only [Bool.false_eq_true, if_false]
  exact hfilter children

lemma RawNode.count_lt (name : String) (children : List RawNode) (score : Option Int)
    (c : RawNode) (h : c ∈ children) :
    RawNode.count c < RawNode.count (RawNode.mk name children score) := by
  have hle : ∀ cs : List RawNode, c ∈ cs → RawNode.count c ≤ RawNode.countL cs := by
    intro cs
    induction cs with
    | nil => intro h; cases h
    | cons a l ih =>
      intro hm
      rw [RawNode.countL]
      rcases List.mem_cons.mp hm with he | hm
      · subst he; omega
      · have := ih hm; omega
  have := hle children h
  rw [RawNode.count]
  omega

/-- The per-node invariant of the annotated tree: leaves carry descendant
count 0 and the singleton class count; every node's descendant count is
the sum over children of child count plus one and equals the number of
strict descendants; children sit one level deeper; an internal node's
class counts are the key-wise sum of its children's; and the value sum
counts the leaves of the subtree. -/
def NodeInv (n : AnnNode) : Prop :=
  (n.children = [] → n.num_descendants = 0 ∧ n.class_counts = [(n.name, 1)])
  ∧ n.num_descendants = (n.children.map (fun c => c.num_descendants + 1)).sum
  ∧ (∀ c ∈ n.children, c.depth = n.depth + 1)
  ∧ (n.children ≠ [] → ∀ k, dictGet n.class_counts k
        = (n.children.map (fun c => dictGet c.class_counts k)).sum)
  ∧ (dictKeys n.class_counts).Nodup
  ∧ dictVals n.class_counts = n.leafCount
  ∧ n.num_descendants + 1 = n.allNodes.length

lemma annotateInternal_inv (name : String) (score : Option Int) (depth : Nat)
    (cs : List RawNode) (hne : cs ≠ [])
    (ih : ∀ c ∈ cs,
        (compute_tree_properties c (depth + 1) false).depth = depth + 1
        ∧ ∀ n ∈ (compute_tree_properties c (depth + 1) false).allNodes, NodeInv n) :
    (annotateInternal name score depth (computeTreeList cs (depth + 1))).depth = depth
    ∧ (annotateInternal name score depth (computeTreeList cs (depth + 1))).name = name
    ∧ ∀ n ∈ (annotateInternal name score depth (computeTreeList cs (depth + 1))).allNodes,
        NodeInv n := by
  have hmem : ∀ a ∈ computeTreeList cs (depth + 1),
      ∃ c ∈ cs, a = compute_tree_properties c (depth + 1) false := by
    intro a ha
    rw [computeTreeList_eq_map] at ha
    obtain ⟨c, hc, he⟩ := List.mem_map.mp ha
    exact ⟨c, hc, he.symm⟩
  have hdepth : ∀ a ∈ computeTreeList cs (depth + 1), a.depth = depth + 1 := by
    intro a ha
    obtain ⟨c, hc, he⟩ := hmem a ha
    rw [he]
    exact (ih c hc).1
  have hinv : ∀ a ∈ computeTreeList cs (depth + 1), ∀ n ∈ a.allNodes, NodeInv n := by
    intro a ha
    obtain ⟨c, hc, he⟩ := hmem a ha
    rw [he]
    exact (ih c hc).2
  have hinv_self : ∀ a ∈ computeTreeList cs (depth + 1), NodeInv a :=
    fun a ha => hinv a ha a (mem_allNodes_self a)
  have hane : computeTreeList cs (depth + 1) ≠ [] := by
    rw [computeTreeList_eq_map]
    simpa using hne
  have hkeys : ∀ a ∈ computeTreeList cs (depth + 1), (dictKeys a.class_counts).Nodup :=
    fun a ha => (hinv_self a ha).2.2.2.2.1
  refine ⟨rfl, rfl, ?_⟩
  intro n hn
  rw [annotateInternal, allNodes_mk] at hn
  rcases List.mem_cons.mp hn with he | hn
  · subst he
    refine ⟨fun h => absurd h hane, ?_, ?_, ?_, ?_, ?_, ?_⟩
    · show sumDescendants _ = _
      exact sumDescendants_eq _
    · intro c hc
      show c.depth = depth + 1
      exact hdepth c hc
    · intro _ k
      show dictGet (mergeClassCounts _) k = _
      exact mergeClassCounts_get _ hkeys k
    · exact mergeClassCounts_keys_nodup _
    · show dictVals (mergeClassCounts _) = _
      rw [mergeClassCounts_vals,
        leafCount_internal _ _ _ _ _ _ hane]
      congr 1
      exact List.map_congr_left (fun a ha => (hinv_self a ha).2.2.2.2.2.1)
    · show sumDescendants _ + 1 = _
      rw [allNodes_mk, List.length_cons, sumDescendants_eq, allNodesL_eq_flatMap,
        List.length_flatMap]
      have hlen : ∀ a ∈ computeTreeList cs (depth + 1),
          AnnNode.num_descendants a + 1 = a.allNodes.length :=
        fun a ha => (hinv_self a ha).2.2.2.2.2.2
      have hmapeq : List.map (fun c => AnnNode.num_descendants c + 1)
            (computeTreeList cs (depth + 1))
          = List.map (List.length ∘ AnnNode.allNodes) (computeTreeList cs (depth + 1)) :=
        List.map_congr_left (fun a ha => hlen a ha)
      rw [hmapeq]
  · rw [allNodesL_eq_flatMap] at hn
    obtain ⟨a, ha, hna⟩ := List.mem_flatMap.mp hn
    exact hinv a ha n hna

lemma compute_tree_properties_inv (t : RawNode) (depth : Nat) (merge : Bool) :
    (compute_tree_properties t depth merge).depth = depth
    ∧ (depth = 0 → (compute_tree_properties t depth merge).name = t.name)
    ∧ ∀ n ∈ (compute_tree_properties t depth merge).allNodes, NodeInv n := by
  suffices H : ∀ N t depth merge, RawNode.count t ≤ N →
      (compute_tree_properties t depth merge).depth = depth
      ∧ (depth = 0 → (compute_tree_properties t depth merge).name = t.name)
      ∧ ∀ n ∈ (compute_tree_properties t depth merge).allNodes, NodeInv n from
    H (RawNode.count t) t depth merge le_rfl
  intro N
  induction N using Nat.strong_induction_on with
  | _ N ihN =>
    intro t depth merge hle
    obtain ⟨name, children, score⟩ := t
    cases children with
    | nil =>
      refine ⟨rfl, fun _ => rfl, ?_⟩
      intro n hn
      have hn' : n = AnnNode.mk name [] score depth 0 [(name, 1)] := by
        cases merge <;> simpa [compute_tree_properties, allNodes_mk, AnnNode.allNodesL]
          using hn
      subst hn'
      exact ⟨fun _ => ⟨rfl, rfl⟩, rfl, fun c hc => absurd hc (List.not_mem_nil c),
        fun h => absurd rfl h, by simp [dictKeys, AnnNode.class_counts],
        by simp [dictVals, AnnNode.class_counts, leafCount_leaf],
        by simp [allNodes_mk, AnnNode.allNodesL, AnnNode.num_descendants]⟩
    | cons c0 cs =>
      have hIH : ∀ c ∈ c0 :: cs,
          (compute_tree_properties c (depth + 1) false).depth = depth + 1
          ∧ ∀ n ∈ (compute_tree_properties c (depth + 1) false).allNodes, NodeInv n := by
        intro c hc
        have hlt := RawNode.count_lt name (c0 :: cs) score c hc
        have h := ihN (RawNode.count c) (by omega) c (depth + 1) false le_rfl
        exact ⟨h.1, h.2.2⟩
      obtain ⟨cn, cgs, cscore⟩ := c0
      obtain ⟨hdep, hnm, hinv⟩ :=
        annotateInternal_inv name score depth (RawNode.mk cn cgs cscore :: cs)
          (by simp) hIH
      cases merge with
      | false =>
        cases cgs with
        | nil =>
          cases cs with
          | nil => exact ⟨hdep, fun _ => hnm, hinv⟩
          | cons c1 cs' => exact ⟨hdep, fun _ => hnm, hinv⟩
        | cons g gs =>
          cases cs with
          | nil => exact ⟨hdep, fun _ => hnm, hinv⟩
          | cons c1 cs' => exact ⟨hdep, fun _ => hnm, hinv⟩
      | true =>
        cases cgs with
        | nil =>
          cases cs with
          | nil => exact ⟨hdep, fun _ => hnm, hinv⟩
          | cons c1 cs' => exact ⟨hdep, fun _ => hnm, hinv⟩
        | cons g gs =>
          cases cs with
          | cons c1 cs' => exact ⟨hdep, fun _ => hnm, hinv⟩
          | nil =>
            have hred : compute_tree_properties
                  (RawNode.mk name [RawNode.mk cn (g :: gs) cscore] score) depth true
                = if depth ≠ 0 then
                    annotateInternal (name ++ " AND " ++ cn) score depth
                      (computeTreeList (g :: gs) (depth + 1))
                  else
                    annotateInternal name score depth
                      [compute_tree_properties (RawNode.mk cn (g :: gs) cscore)
                        (depth + 1) false] := rfl
            by_cases hd : depth = 0
            · obtain ⟨hdep, hnm, hinv⟩ :=
                annotateInternal_inv name score depth [RawNode.mk cn (g :: gs) cscore]
                  (by simp) (fun c hc => hIH c (by simpa using hc))
              rw [hred, if_neg (by simp [hd])]
              exact ⟨hdep, fun _ => hnm, hinv⟩
            · have hgIH : ∀ c ∈ g :: gs,
                  (compute_tree_properties c (depth + 1) false).depth = depth + 1
                  ∧ ∀ n ∈ (compute_tree_properties c (depth + 1) false).allNodes,
                      NodeInv n := by
                intro c hc
                have h1 := RawNode.count_lt cn (g :: gs) cscore c hc
                have h2 := RawNode.count_lt name [RawNode.mk cn (g :: gs) cscore] score
                  (RawNode.mk cn (g :: gs) cscore) (by simp)
                have h := ihN (RawNode.count c) (by omega) c (depth + 1) false le_rfl
                exact ⟨h.1, h.2.2⟩
              obtain ⟨hdep, hnm, hinv⟩ :=
                annotateInternal_inv (name ++ " AND " ++ cn) score depth (g :: gs)
                  (by simp) hgIH
              rw [hred, if_pos hd]
              exact ⟨hdep, fun h0 => absurd h0 hd, hinv⟩

/-! ## Claims C6, C7, C8 -/

lemma ruleset_hierarchy_tree_eq_compute (R : Ruleset) (dataset : Option (Term → String))
    (merge : Bool) (t : AnnNode) (h : ruleset_hierarchy_tree R dataset merge = some t) :
    ∃ children, extract_hierarchy_node R dataset merge = some children
      ∧ t = compute_tree_properties (RawNode.mk "ruleset" children none) 0 merge := by
  rw [ruleset_hierarchy_tree] at h
  cases hext : extract_hierarchy_node R dataset merge with
  | none => rw [hext] at h; cases h
  | some children =>
    rw [hext] at h
    simp only [Option.some.injEq] at h
    exact ⟨children, rfl, h.symm⟩

/-- C6: in the annotated tree returned by `ruleset_hierarchy_tree`, every
node with empty children has `num_descendants = 0`, every other node's
`num_descendants` is the sum over its (post-collapse) children of the
child's `num_descendants` plus one, and consequently `num_descendants`
counts exactly the nodes strictly below the node in its subtree. -/
theorem c6_descendant_counts (R : Ruleset) (dataset : Option (Term → String)) (merge : Bool)
    (t : AnnNode) (h : ruleset_hierarchy_tree R dataset merge = some t) :
    ∀ n ∈ t.allNodes,
      (n.children = [] → n.num_descendants = 0)
      ∧ (n.children ≠ [] →
          n.num_descendants = (n.children.map (fun c => c.num_descendants + 1)).sum)
      ∧ n.num_descendants + 1 = n.allNodes.length := by
  obtain ⟨children, _, ht⟩ := ruleset_hierarchy_tree_eq_compute R dataset merge t h
  subst ht
  intro n hn
  have hinv := (compute_tree_properties_inv (RawNode.mk "ruleset" children none) 0 merge).2.2
    n hn
  exact ⟨fun he => (hinv.1 he).1, fun _ => hinv.2.1, hinv.2.2.2.2.2.2⟩

/-- C7: in the annotated tree returned by `ruleset_hierarchy_tree`, every
leaf's `class_counts` is the singleton map from its own name to 1, every
internal node's `class_counts` is the key-wise additive merge of its
children's, and for every node the value sum of `class_counts` equals the
number of leaves in the node's subtree. -/
theorem c7_class_counts (R : Ruleset) (dataset : Option (Term → String)) (merge : Bool)
    (t : AnnNode) (h : ruleset_hierarchy_tree R dataset merge = some t) :
    ∀ n ∈ t.allNodes,
      (n.children = [] → n.class_counts = [(n.name, 1)])
      ∧ (n.children ≠ [] → ∀ k, dictGet n.class_counts k
            = (n.children.map (fun c => dictGet c.class_counts k)).sum)
      ∧ dictVals n.class_counts = n.leafCount := by
  obtain ⟨children, _, ht⟩ := ruleset_hierarchy_tree_eq_compute R dataset merge t h
  subst ht
  intro n hn
  have hinv := (compute_tree_properties_inv (RawNode.mk "ruleset" children none) 0 merge).2.2
    n hn
  exact ⟨fun he => (hinv.1 he).2, hinv.2.2.2.1, hinv.2.2.2.2.2.1⟩

/-- C8: the tree returned by `ruleset_hierarchy_tree` always has the
synthetic root named `"ruleset"` at depth 0, and throughout the annotated
tree each child's depth is its parent's depth plus one. -/
theorem c8_root_and_depths (R : Ruleset) (dataset : Option (Term → String)) (merge : Bool)
    (t : AnnNode) (h : ruleset_hierarchy_tree R dataset merge = some t) :
    t.name = "ruleset" ∧ t.depth = 0
    ∧ ∀ n ∈ t.allNodes, ∀ c ∈ n.children, c.depth = n.depth + 1 := by
  obtain ⟨children, _, ht⟩ := ruleset_hierarchy_tree_eq_compute R dataset merge t h
  subst ht
  have hinv := compute_tree_properties_inv (RawNode.mk "ruleset" children none) 0 merge
  exact ⟨hinv.2.1 rfl, hinv.1,
    fun n hn => (hinv.2.2 n hn).2.2.1⟩

/-- The annotated tree produced for `rsW` (no dataset, no merge). -/
def annW : AnnNode :=
  AnnNode.mk "ruleset"
    [AnnNode.mk "B"
      [AnnNode.mk "A" [AnnNode.mk "X" [] (some 9) 3 0 [("X", 1)]] none 2 1 [("X", 1)],
       AnnNode.mk "Y" [] (some 5) 2 0 [("Y", 1)]]
      none 1 3 [("X", 1), ("Y", 1)]]
    none 0 4 [("X", 1), ("Y", 1)]

/-- Witness for C6 at the concrete ruleset `rsW`. -/
theorem c6_descendant_counts_witness :
    ruleset_hierarchy_tree rsW none false = some annW
    ∧ ∀ n ∈ annW.allNodes,
      (n.children = [] → n.num_descendants = 0)
      ∧ (n.children ≠ [] →
          n.num_descendants = (n.children.map (fun c => c.num_descendants + 1)).sum)
      ∧ n.num_descendants + 1 = n.allNodes.length :=
  ⟨rfl, c6_descendant_counts rsW none false annW rfl⟩

/-- Witness for C7 at the concrete ruleset `rsW`. -/
theorem c7_class_counts_witness :
    ruleset_hierarchy_tree rsW none false = some annW
    ∧ ∀ n ∈ annW.allNodes,
      (n.children = [] → n.class_counts = [(n.name, 1)])
      ∧ (n.children ≠ [] → ∀ k, dictGet n.class_counts k
            = (n.children.map (fun c => dictGet c.class_counts k)).sum)
      ∧ dictVals n.class_counts = n.leafCount :=
  ⟨rfl, c7_class_counts rsW none false annW rfl⟩

/-- Witness for C8 at the concrete ruleset `rsW`. -/
theorem c8_root_and_depths_witness :
    ruleset_hierarchy_tree rsW none false = some annW
    ∧ annW.name = "ruleset" ∧ annW.depth = 0
    ∧ ∀ n ∈ annW.allNodes, ∀ c ∈ n.children, c.depth = n.depth + 1 :=
  ⟨rfl, c8_root_and_depths rsW none false annW rfl⟩

/-! ## Claims C10 and C3 -/

/-- C10: for an empty ruleset (no rules, any metadata, any dataset, any
merge flag), `ruleset_hierarchy_tree` returns the bare synthetic root:
name `"ruleset"`, no children, no score, depth 0, `num_descendants` 0, and
`class_counts` mapping `"ruleset"` to 1 (the annotation pass treats the
root as a leaf). -/
theorem c10_empty_ruleset (fns cls : List String) (reg : Bool)
    (dataset : Option (Term → String)) (merge : Bool) :
    ruleset_hierarchy_tree ⟨[], fns, cls, reg⟩ dataset merge
      = some (AnnNode.mk "ruleset" [] none 0 0 [("ruleset", 1)]) := by
  cases merge <;> rfl

/-- Sample ruleset whose tree contains a single-child chain of two split
nodes: `{A, B} → X` (score 9) and `{C} → Y` (score 5). -/
def rsChain : Ruleset :=
  ⟨[⟨[⟨[tA, tB], 0, 9⟩], "X"⟩, ⟨[⟨[tC], 0, 5⟩], "Y"⟩], ["f"], ["X", "Y"], false⟩

/-- C3 (code bug): with `merge = True`, the node `"A"` at depth 1 has
exactly one child `"B"`, which itself has a child, so the documented
collapse should turn it into `"A AND B"` with the leaf `"X"` as child.
The code never collapses: the recursive annotation calls drop the `merge`
flag (it defaults to `False`), and the only call receiving `merge = True`
is the root, excluded by `depth != 0`.  The full annotated tree shows the
chain intact. -/
theorem c3_collapse_never_happens :
    ruleset_hierarchy_tree rsChain none true
      = some (AnnNode.mk "ruleset"
          [AnnNode.mk "A"
            [AnnNode.mk "B" [AnnNode.mk "X" [] (some 9) 3 0 [("X", 1)]] none 2 1 [("X", 1)]]
            none 1 2 [("X", 1)],
           AnnNode.mk "C" [AnnNode.mk "Y" [] (some 5) 2 0 [("Y", 1)]] none 1 1 [("Y", 1)]]
          none 0 5 [("X", 1), ("Y", 1)]) := rfl

/-! ## Claim C9 -/

/-- A raw node is a linear chain with the given node names ending in the
given leaf: each listed name labels one node with exactly one child and no
score, and the chain terminates in the leaf. -/
def IsLinearChain : List String → RawNode → RawNode → Prop
  | [], leaf, n => n = leaf
  | s :: rest, leaf, n =>
    n.name = s ∧ n.score = none ∧ ∃ m, n.children = [m] ∧ IsLinearChain rest leaf m

lemma chainNodes_isLinearChain (dataset : Option (Term → String)) (ts : List Term)
    (leaf : RawNode) :
    IsLinearChain (ts.map (fun t => htmlify (termStr dataset t))) leaf
      (chainNodes dataset ts leaf) := by
  induction ts with
  | nil => rfl
  | cons a rest ih =>
    simp only [List.map_cons, chainNodes, IsLinearChain]
    exact ⟨rfl, rfl, chainNodes dataset rest leaf, rfl, ih⟩

/-- C9: on a single-rule ruleset the extractor emits a conclusion leaf
whose score is the first clause's score (0 when the premise has no
clause); with remaining terms and `merge` the terms become one synthetic
`" AND "`-joined node over the leaf, without `merge` a linear chain of one
node per term ending in the leaf, and with no remaining terms the leaf
alone. -/
theorem c9_single_rule_base_case (R : Ruleset) (dataset : Option (Term → String))
    (merge : Bool) (rule : Rule) (h : R.rules = [rule]) :
    (rule.premise = [] →
        extract_hierarchy_node R dataset merge
          = some [RawNode.mk (htmlify rule.conclusion) [] (some 0)])
    ∧ (∀ clause rest, rule.premise = clause :: rest →
        (clause.terms = [] →
            extract_hierarchy_node R dataset merge
              = some [RawNode.mk (htmlify rule.conclusion) [] (some clause.score)])
        ∧ (clause.terms ≠ [] → merge = true →
            extract_hierarchy_node R dataset merge
              = some [RawNode.mk
                  (htmlify (String.intercalate " AND " (clause.terms.map (termStr dataset))))
                  [RawNode.mk (htmlify rule.conclusion) [] (some clause.score)] none])
        ∧ (clause.terms ≠ [] → merge = false →
            extract_hierarchy_node R dataset merge
              = some [chainNodes dataset clause.terms
                  (RawNode.mk (htmlify rule.conclusion) [] (some clause.score))]
            ∧ IsLinearChain (clause.terms.map (fun t => htmlify (termStr dataset t)))
                (RawNode.mk (htmlify rule.conclusion) [] (some clause.score))
                (chainNodes dataset clause.terms
                  (RawNode.mk (htmlify rule.conclusion) [] (some clause.score))))) := by
  have hbase : extract_hierarchy_node R dataset merge
      = some (extractSingleRule rule dataset merge) := by
    rw [extract_hierarchy_node, extractAux, h]
  constructor
  · intro hp
    rw [hbase]
    simp [extractSingleRule, hp]
  · intro clause rest hp
    refine ⟨?_, ?_, ?_⟩
    · intro hterms
      rw [hbase]
      simp [extractSingleRule, hp, hterms]
    · intro hterms hm
      subst hm
      rw [hbase]
      cases hts : clause.terms with
      | nil => exact absurd hts hterms
      | cons a l =>
        rw [extractSingleRule, hp]
        simp only [hts]
        rw [← hts]
        simp
    · intro hterms hm
      subst hm
      refine ⟨?_, chainNodes_isLinearChain dataset clause.terms _⟩
      rw [hbase]
      cases hts : clause.terms with
      | nil => exact absurd hts hterms
      | cons a l =>
        rw [extractSingleRule, hp]
        simp only [hts]
        rw [← hts]
        simp

/-- Sample single-rule ruleset `{A, B} → Z` (score 7). -/
def rsSingle : Ruleset := ⟨[⟨[⟨[tA, tB], 0, 7⟩], "Z"⟩], ["f"], ["Z"], false⟩

/-- Witness for C9 at the concrete single-rule ruleset `rsSingle` with
`merge = false`. -/
theorem c9_single_rule_base_case_witness :
    rsSingle.rules = [⟨[⟨[tA, tB], 0, 7⟩], "Z"⟩]
    ∧ (((⟨[⟨[tA, tB], 0, 7⟩], "Z"⟩ : Rule).premise = [] →
        extract_hierarchy_node rsSingle none false
          = some [RawNode.mk (htmlify "Z") [] (some 0)])
    ∧ (∀ clause rest, (⟨[⟨[tA, tB], 0, 7⟩], "Z"⟩ : Rule).premise = clause :: rest →
        (clause.terms = [] →
            extract_hierarchy_node rsSingle none false
              = some [RawNode.mk (htmlify "Z") [] (some clause.score)])
        ∧ (clause.terms ≠ [] → false = true →
            extract_hierarchy_node rsSingle none false
              = some [RawNode.mk
                  (htmlify (String.intercalate " AND " (clause.terms.map (termStr none))))
                  [RawNode.mk (htmlify "Z") [] (some clause.score)] none])
        ∧ (clause.terms ≠ [] → false = false →
            extract_hierarchy_node rsSingle none false
              = some [chainNodes none clause.terms
                  (RawNode.mk (htmlify "Z") [] (some clause.score))]
            ∧ IsLinearChain (clause.terms.map (fun t => htmlify (termStr none t)))
                (RawNode.mk (htmlify "Z") [] (some clause.score))
                (chainNodes none clause.terms
                  (RawNode.mk (htmlify "Z") [] (some clause.score)))))) :=
  ⟨rfl, c9_single_rule_base_case rsSingle none false ⟨[⟨[tA, tB], 0, 7⟩], "Z"⟩ rfl⟩
